import Mathlib

/-!
Verification of the image-version-scraper repository.

Python strings are embedded as `List Char`; Python helper semantics
(`str.split`, `str.rfind`, `int(...)`, regex word-boundary search) are
modelled by the `Py` helper functions below.  `src/main.py` is embedded in
namespace `MainPy`, `src/entry.py` in namespace `EntryPy`.  Exceptions are
modelled with `Option`/`Except`.
-/

namespace Py

/-- Shorthand: a Lean string literal as a Python string (`List Char`). -/
def str (s : String) : List Char := s.data

/-- Python `s.split(sep)` for a single-character separator: always returns
`n+1` (possibly empty) segments for `n` occurrences of `sep`. -/
def splitChar (sep : Char) : List Char → List (List Char)
  | [] => [[]]
  | x :: xs =>
    if x = sep then [] :: splitChar sep xs
    else
      match splitChar sep xs with
      | [] => [[x]]
      | h :: t => (x :: h) :: t

/-- Index of the first occurrence of a (non-empty) substring, Python
`s.find(sub)` restricted to `some`/`none` instead of `-1`. -/
def subIndex (sub : List Char) : List Char → Option Nat
  | [] => if sub.isEmpty then some 0 else none
  | c :: t =>
    if sub.isPrefixOf (c :: t) then some 0
    else (subIndex sub t).map (fun i => i + 1)

/-- Python `s.split(sub, 1)` for a non-empty separator substring. -/
def splitSubOnce (sub s : List Char) : List (List Char) :=
  match subIndex sub s with
  | some i => [s.take i, s.drop (i + sub.length)]
  | none => [s]

/-- Python `s.rfind(c)`: index of the last occurrence, or `-1`. -/
def rfindAux (c : Char) : List Char → Option Nat
  | [] => none
  | x :: xs =>
    match rfindAux c xs with
    | some i => some (i + 1)
    | none => if x = c then some 0 else none

def rfind (c : Char) (s : List Char) : Int :=
  match rfindAux c s with
  | some i => (i : Int)
  | none => -1

/-- ASCII whitespace stripped by Python `int()`. -/
def isSpace (c : Char) : Bool :=
  c = ' ' || c = '\t' || c = '\n' || c = '\r' || c = '\x0b' || c = '\x0c'

def stripWs (s : List Char) : List Char :=
  ((s.dropWhile isSpace).reverse.dropWhile isSpace).reverse

/-- Digit run with single underscores allowed between digits (Python 3
numeric literals accepted by `int()`). -/
def digitsCore : List Char → Nat → Option Nat
  | [], acc => some acc
  | '_' :: rest, acc =>
    match rest with
    | d :: _ => if d.isDigit then digitsCore rest acc else none
    | [] => none
  | c :: rest, acc =>
    if c.isDigit then digitsCore rest (acc * 10 + (c.toNat - 48)) else none

def parseDigits (s : List Char) : Option Nat :=
  match s with
  | c :: _ => if c.isDigit then digitsCore s 0 else none
  | [] => none

/-- Python `int(s)` (ASCII scope): optional surrounding whitespace, optional
sign, then a digit run; `none` models the `ValueError`. -/
def pyInt (s : List Char) : Option Int :=
  let t := stripWs s
  match t with
  | '+' :: rest => (parseDigits rest).map (fun n => (n : Int))
  | '-' :: rest => (parseDigits rest).map (fun n => -(n : Int))
  | _ => (parseDigits t).map (fun n => (n : Int))

/-- Python `sub in s` substring test. -/
def containsSub (sub : List Char) : List Char → Bool
  | [] => sub.isEmpty
  | c :: t => sub.isPrefixOf (c :: t) || containsSub sub t

/-- `\w` of Python `re` (ASCII scope). -/
def isWordChar (c : Char) : Bool := c.isAlphanum || c = '_'

/-- Left word-boundary test of `\b`: true at the string edge or after a
non-word character. -/
def leftBoundary (prev : Option Char) : Bool :=
  match prev with
  | none => true
  | some p => !isWordChar p

/-- Right word-boundary test of `\b`: true at the string edge or before a
non-word character. -/
def rightBoundary (post : List Char) : Bool :=
  match post with
  | [] => true
  | c :: _ => !isWordChar c

/-- One position of `re.search` for the pattern `\b kw \b`: `kw` is a prefix
of `rest` and both sides are at a word boundary (`prev` is the character just
before `rest`, if any). -/
def wordMatchHere (kw rest : List Char) (prev : Option Char) : Bool :=
  kw.isPrefixOf rest && leftBoundary prev && rightBoundary (rest.drop kw.length)

def searchWordAux (kw : List Char) : List Char → Option Char → Bool
  | [], prev => wordMatchHere kw [] prev
  | c :: rest, prev =>
    wordMatchHere kw (c :: rest) prev || searchWordAux kw rest (some c)

/-- `re.search(r'\b kw \b', s)` as a Boolean, for an alphabetic `kw`. -/
def searchWord (kw s : List Char) : Bool := searchWordAux kw s none

/-- Python `sep.join(parts)`. -/
def pyJoin (sep : List Char) : List (List Char) → List Char
  | [] => []
  | [p] => p
  | p :: q :: t => p ++ sep ++ pyJoin sep (q :: t)

end Py

open Py

namespace MainPy

/-- The `ImageVersion` value of `src/main.py`: original tag, optional
variant after the first `-`, and the three numeric components. -/
structure ImageVersion where
  original : List Char
  variant : Option (List Char)
  major : Int
  minor : Int
  patch : Int
deriving DecidableEq, Repr

/-- `ImageVersion.__init__` (main.py lines 22-35); `none` models the raised
`ValueError`.  The first dot-component has every `v` removed
(`parts[0].replace('v', '')`) before `int` parsing. -/
def ImageVersion.parse (tag : List Char) : Option ImageVersion :=
  let pr : List Char × Option (List Char) :=
    if tag.contains '-' then
      match splitSubOnce [ '-' ] tag with
      | [a, b] => (a, some b)
      | _ => (tag, none)
    else (tag, none)
  match splitChar '.' pr.1 with
  | [p0, p1, p2] =>
    match pyInt (p0.filter (fun c => c != 'v')), pyInt p1, pyInt p2 with
    | some ma, some mi, some pa => some ⟨tag, pr.2, ma, mi, pa⟩
    | _, _, _ => none
  | _ => none

/-- The prerelease keywords of `main.py` line 50. -/
def prereleaseWords : List (List Char) :=
  [str "alpha", str "beta", str "rc", str "pre", str "next", str "canary"]

/-- `ImageVersion.is_prerelease` (main.py lines 46-50): false on a falsy
variant, else a word-boundary regex search for any keyword. -/
def ImageVersion.is_prerelease (v : ImageVersion) : Bool :=
  match v.variant with
  | none => false
  | some var =>
    if var.isEmpty then false
    else prereleaseWords.any (fun kw => searchWord kw var)

/-- The `(major, minor, patch)` tuple used by `__eq__` and `__lt__`. -/
def vkey (v : ImageVersion) : Int × Int × Int := (v.major, v.minor, v.patch)

/-- Python tuple `<` on the three components (lexicographic). -/
def tripleLt (a b : Int × Int × Int) : Bool :=
  decide (a.1 < b.1)
    || (a.1 == b.1
        && (decide (a.2.1 < b.2.1)
            || (a.2.1 == b.2.1 && decide (a.2.2 < b.2.2))))

/-- `ImageVersion.__lt__` (main.py lines 40-41). -/
def ImageVersion.lt (a b : ImageVersion) : Bool := tripleLt (vkey a) (vkey b)

/-- `ImageVersion.__eq__` (main.py lines 37-38). -/
def ImageVersion.eqv (a b : ImageVersion) : Bool := vkey a == vkey b

/-- The total preorder `a <= b` that Python's stable `list.sort()` sorts by,
derived from `__lt__` alone: `not (b < a)`. -/
def pyLe (a b : ImageVersion) : Prop := tripleLt (vkey b) (vkey a) = false

instance : DecidableRel pyLe := fun a b =>
  inferInstanceAs (Decidable (tripleLt (vkey b) (vkey a) = false))

instance : IsTotal ImageVersion pyLe where
  total := by
    intro a b
    simp only [pyLe, tripleLt, Bool.or_eq_false_iff, Bool.and_eq_false_iff,
      decide_eq_false_iff_not, not_lt, beq_eq_false_iff_ne, ne_eq]
    omega

instance : IsTrans ImageVersion pyLe where
  trans := by
    intro a b c
    simp only [pyLe, tripleLt, Bool.or_eq_false_iff, Bool.and_eq_false_iff,
      decide_eq_false_iff_not, not_lt, beq_eq_false_iff_ne, ne_eq]
    omega

/-- The tag-resolution step of `main` (main.py lines 202-213): parse each raw
tag, keep versions strictly newer than `cur` (`version > current_version`
falls back to `current.__lt__(version)`) that are not prereleases, skip
unparseable tags, then `results.sort()` — a stable ascending sort by the
`(major, minor, patch)` order, embedded as an insertion sort. -/
def resolveTags (cur : ImageVersion) (tags : List (List Char)) :
    List ImageVersion :=
  let results := tags.filterMap (fun t =>
    match ImageVersion.parse t with
    | some v =>
      if ImageVersion.lt cur v && !v.is_prerelease then some v else none
    | none => none)
  List.insertionSort pyLe results

/-- `extract_tag` (main.py lines 83-93); `Except.error` models the raised
`ValueError`. -/
def extract_tag (image_url : List Char) : Except (List Char) (List Char) :=
  let last_colon := rfind ':' image_url
  let last_slash := rfind '/' image_url
  if last_colon = -1 || last_colon < last_slash then
    Except.error (str "No tag found on image url: " ++ image_url)
  else
    Except.ok (image_url.drop (last_colon.toNat + 1))

def default_registry : List Char := str "registry-1.docker.io"

/-- `strip_tag` (main.py lines 153-160). -/
def strip_tag (image_url : List Char) : List Char :=
  if !(image_url.contains ':') then image_url
  else
    let i := (rfind ':' image_url).toNat
    if (image_url.drop i).contains '/' then image_url
    else image_url.take i

/-- `parse_image_url` (main.py lines 133-150): returns (registry, repo). -/
def parse_image_url (image_url : List Char) : List Char × List Char :=
  let image := strip_tag image_url
  if !(image.contains '/') then
    (default_registry, str "library/" ++ image)
  else
    let parts := splitChar '/' image
    let p0 := parts.headD []
    if p0.contains '.' || p0.contains ':' then
      (p0, pyJoin (str "/") parts.tail)
    else
      (default_registry, image)

/-- The distinct failure modes that abort one image reference in `main`
(main.py lines 186-221); none of them is caught inside the batch loop. -/
inductive RefError where
  | noTag
  | badCurrentVersion
  | missingCredential
  | netFailure
deriving DecidableEq, Repr

/-- Outcome of the network interaction for one reference (token exchange
plus `get_tags`), supplied as an oracle: either the raw tag list of a fully
successful exchange, or any `requests`/token exception. -/
inductive NetOutcome where
  | ok (tags : List (List Char))
  | fail
deriving DecidableEq, Repr

/-- One iteration of the batch loop of `main` (main.py lines 188-219) for a
single image reference: extract and parse the current tag, select the auth
strategy (`get_auth_headers`, where only the GHCR branch can fail without
the network), consult the network oracle, and resolve the candidate tags.
Returns whether newer versions were found (`if results:`), or the first
uncaught exception. -/
def processRef (github_token : List Char) (image_url : List Char)
    (net : NetOutcome) : Except RefError Bool :=
  match extract_tag image_url with
  | Except.error _ => Except.error RefError.noTag
  | Except.ok tag =>
    match ImageVersion.parse tag with
    | none => Except.error RefError.badCurrentVersion
    | some cur =>
      let registry := (parse_image_url image_url).1
      if !containsSub (str "public.ecr.aws") registry
          && !containsSub (str "docker") registry
          && containsSub (str "ghcr") registry
          && github_token.isEmpty then
        Except.error RefError.missingCredential
      else
        match net with
        | NetOutcome.fail => Except.error RefError.netFailure
        | NetOutcome.ok ts => Except.ok (!(resolveTags cur ts).isEmpty)

/-- The batch loop of `main` (main.py lines 186-219): an uncaught exception
in any iteration propagates out of `main` at once, so later references are
never processed; otherwise the `any_newer_versions_found` flag accumulates. -/
def runBatch (github_token : List Char) :
    List (List Char × NetOutcome) → Except RefError Bool
  | [] => Except.ok false
  | (iu, net) :: rest =>
    match processRef github_token iu net with
    | Except.error e => Except.error e
    | Except.ok found =>
      match runBatch github_token rest with
      | Except.error e => Except.error e
      | Except.ok f => Except.ok (found || f)

/-- `sys.exit(1 if any_newer_versions_found else 0)` (main.py line 221),
reached only when every reference was processed without an exception. -/
def mainExitCode (github_token : List Char)
    (refs : List (List Char × NetOutcome)) : Except RefError Nat :=
  match runBatch github_token refs with
  | Except.error e => Except.error e
  | Except.ok f => Except.ok (if f then 1 else 0)

end MainPy

namespace EntryPy

/-- The `VersionWithVariant` value of `src/entry.py`. -/
structure VersionWithVariant where
  original : List Char
  variant : Option (List Char)
  major : Int
  minor : Int
  patch : Int
deriving DecidableEq, Repr

/-- `VersionWithVariant.__init__` (entry.py lines 6-17); `none` models the
raised `ValueError`.  Note line 9 splits the tag on THE TAG ITSELF
(`tag.split(tag, 1)`), and there is no `v` stripping. -/
def VersionWithVariant.parse (tag : List Char) :
    Option VersionWithVariant :=
  let pr : List Char × Option (List Char) :=
    if tag.contains '-' then
      let pieces := splitSubOnce tag tag
      (pieces.headD [], some (pieces.getD 1 []))
    else (tag, none)
  match splitChar '.' pr.1 with
  | [p0, p1, p2] =>
    match pyInt p0, pyInt p1, pyInt p2 with
    | some ma, some mi, some pa => some ⟨tag, pr.2, ma, mi, pa⟩
    | _, _, _ => none
  | _ => none

/-- `extract_tag` (entry.py lines 63-73) with its default `default_tag`
of `"latest"`.  When the reference has no colon, `parts` has one element
and the `parts[-2]` access raises `IndexError`, modelled as `none`. -/
def extract_tag (image_url : List Char) : Option (List Char) :=
  let default_tag := str "latest"
  let parts := splitChar ':' image_url
  if parts.length > 2 then some default_tag
  else
    match parts with
    | [p0, p1] =>
      if p0.contains '/' && !(p0.contains '.') then some default_tag
      else some p1
    | _ => none

end EntryPy

namespace Py

/-- Stated from the spec: `s` contains `kw` as a whole word, i.e. an
occurrence of `kw` flanked on both sides by a word boundary. -/
def SpecWordOccurs (kw s : List Char) : Prop :=
  ∃ pre post, s = pre ++ kw ++ post
    ∧ leftBoundary pre.getLast? = true
    ∧ rightBoundary post = true

end Py

namespace MainPy

/-- Stated from the spec: the version part of a tag, i.e. what precedes the
first `-` (the whole tag when there is no `-`). -/
def versionNumericPart (tag : List Char) : List Char :=
  if tag.contains '-' then tag.takeWhile (fun c => c != '-') else tag

/-- Stated from the spec: the port tie-break condition — more than 2
colon-delimited parts, or a `.`-free segment immediately before the last
colon (`parts[-2]`) that contains a `/`. -/
def specPortTieBreak (s : List Char) : Bool :=
  let parts := splitChar ':' s
  decide (parts.length > 2)
    || ((parts.getD (parts.length - 2) []).contains '/'
        && !((parts.getD (parts.length - 2) []).contains '.'))

/-- The version value of the tag `1.0.0`. -/
def ver100 : ImageVersion := ⟨str "1.0.0", none, 1, 0, 0⟩

/-- The version value of the tag `1.0.1`. -/
def ver101 : ImageVersion := ⟨str "1.0.1", none, 1, 0, 1⟩

/-- The version value of the tag `2.0.0`. -/
def ver200 : ImageVersion := ⟨str "2.0.0", none, 2, 0, 0⟩

end MainPy

/-! ## Helper lemmas about the Python string model -/

namespace Py

theorem isPrefixOf_iff_append (l : List Char) :
    ∀ s : List Char, l.isPrefixOf s = true ↔ ∃ t, s = l ++ t := by
  induction l with
  | nil =>
    intro s
    simp [List.isPrefixOf]
  | cons a as ih =>
    intro s
    cases s with
    | nil => simp [List.isPrefixOf]
    | cons b bs =>
      simp only [List.isPrefixOf, Bool.and_eq_true, beq_iff_eq, ih,
        List.cons_append, List.cons.injEq]
      constructor
      · rintro ⟨rfl, t, rfl⟩
        exact ⟨t, rfl, rfl⟩
      · rintro ⟨t, rfl, rfl⟩
        exact ⟨rfl, t, rfl⟩

theorem isPrefixOf_refl (l : List Char) : l.isPrefixOf l = true := by
  induction l with
  | nil => rfl
  | cons a as ih => simp [List.isPrefixOf, ih]

theorem splitChar_cons_self (c : Char) (xs : List Char) :
    splitChar c (c :: xs) = [] :: splitChar c xs := by
  simp [splitChar]

theorem splitChar_cons_ne (c x : Char) (xs a : List Char)
    (t : List (List Char)) (h : ¬ x = c) (hs : splitChar c xs = a :: t) :
    splitChar c (x :: xs) = (x :: a) :: t := by
  simp [splitChar, h, hs]

theorem splitChar_ne_nil (c : Char) : ∀ s : List Char, splitChar c s ≠ []
  | [] => by simp [splitChar]
  | x :: xs => by
    by_cases h : x = c
    · simp [splitChar, h]
    · simp only [splitChar, if_neg h]
      cases hs : splitChar c xs with
      | nil => simp
      | cons a t => simp

theorem splitChar_headD (c : Char) :
    ∀ s : List Char, (splitChar c s).headD [] = s.takeWhile (fun x => x != c)
  | [] => by simp [splitChar]
  | x :: xs => by
    by_cases h : x = c
    · subst h
      simp [splitChar, List.takeWhile_cons]
    · have ih := splitChar_headD c xs
      simp only [splitChar, if_neg h]
      cases hs : splitChar c xs with
      | nil => exact absurd hs (splitChar_ne_nil c xs)
      | cons a t =>
        rw [hs] at ih
        simp only [List.headD_cons] at ih
        simp [List.takeWhile_cons, bne, h, ih]

theorem pyJoin_splitChar (c : Char) :
    ∀ s : List Char, pyJoin [c] (splitChar c s) = s
  | [] => by simp [splitChar, pyJoin]
  | x :: xs => by
    have ih := pyJoin_splitChar c xs
    by_cases h : x = c
    · subst h
      simp only [splitChar, if_pos rfl]
      cases hs : splitChar x xs with
      | nil => exact absurd hs (splitChar_ne_nil x xs)
      | cons a t =>
        rw [hs] at ih
        simp [pyJoin, ih]
    · simp only [splitChar, if_neg h]
      cases hs : splitChar c xs with
      | nil => exact absurd hs (splitChar_ne_nil c xs)
      | cons a t =>
        rw [hs] at ih
        cases t with
        | nil =>
          simp only [pyJoin] at ih ⊢
          rw [ih]
        | cons b t2 =>
          simp only [pyJoin] at ih ⊢
          rw [← ih]
          simp

theorem splitChar_of_mem (c : Char) :
    ∀ s : List Char, c ∈ s → ∃ h t, splitChar c s = h :: t ∧ t ≠ []
  | [] => by intro h; cases h
  | x :: xs => by
    intro hmem
    by_cases h : x = c
    · subst h
      refine ⟨[], splitChar x xs, ?_, splitChar_ne_nil x xs⟩
      simp [splitChar]
    · have hc : c ∈ xs := by
        rcases List.mem_cons.mp hmem with h1 | h1
        · exact absurd h1.symm h
        · exact h1
      obtain ⟨a, t, hs, ht⟩ := splitChar_of_mem c xs hc
      refine ⟨x :: a, t, ?_, ht⟩
      simp [splitChar, if_neg h, hs]

theorem not_mem_of_mem_splitChar (c : Char) :
    ∀ s p, p ∈ splitChar c s → c ∉ p
  | [], p => by
    intro hp
    simp [splitChar] at hp
    simp [hp]
  | x :: xs, p => by
    intro hp
    by_cases h : x = c
    · subst h
      rw [splitChar_cons_self] at hp
      rcases List.mem_cons.mp hp with h1 | h1
      · subst h1
        simp
      · exact not_mem_of_mem_splitChar x xs p h1
    · cases hs : splitChar c xs with
      | nil => exact absurd hs (splitChar_ne_nil c xs)
      | cons a t =>
        rw [splitChar_cons_ne c x xs a t h hs] at hp
        rcases List.mem_cons.mp hp with h1 | h1
        · subst h1
          intro hc
          rcases List.mem_cons.mp hc with h2 | h2
          · exact h h2.symm
          · exact not_mem_of_mem_splitChar c xs a
              (hs ▸ List.mem_cons_self a t) h2
        · exact not_mem_of_mem_splitChar c xs p
            (hs ▸ List.mem_cons_of_mem a h1)

theorem rfindAux_eq_none (c : Char) :
    ∀ s : List Char, c ∉ s → rfindAux c s = none
  | [] => by
    intro
    simp [rfindAux]
  | x :: xs => by
    intro h
    have hx : ¬ x = c := by
      intro he
      exact h (he ▸ List.mem_cons_self x xs)
    have hxs : c ∉ xs := fun hc => h (List.mem_cons_of_mem x hc)
    simp [rfindAux, rfindAux_eq_none c xs hxs, hx]

theorem rfindAux_append (c : Char) (b : List Char) (hb : c ∉ b) :
    ∀ a : List Char, rfindAux c (a ++ c :: b) = some a.length
  | [] => by
    simp [rfindAux, rfindAux_eq_none c b hb]
  | x :: a2 => by
    simp [rfindAux, rfindAux_append c b hb a2]

theorem rfindAux_getElem (c : Char) :
    ∀ (s : List Char) (i : Nat), rfindAux c s = some i → s[i]? = some c
  | [], i => by simp [rfindAux]
  | x :: xs, i => by
    simp only [rfindAux]
    cases h : rfindAux c xs with
    | some j =>
      intro hi
      have hij : j + 1 = i := by
        injection hi
      subst hij
      simpa using rfindAux_getElem c xs j h
    | none =>
      by_cases hx : x = c
      · intro hi
        have hi0 : (0 : Nat) = i := by
          rw [if_pos hx] at hi
          injection hi
        subst hi0
        simp [hx]
      · rw [if_neg hx]
        intro hi
        cases hi

theorem subIndex_single (c : Char) :
    ∀ s : List Char, c ∈ s →
      subIndex [ c ] s = some (s.takeWhile (fun x => x != c)).length
  | [] => by
    intro h
    cases h
  | x :: xs => by
    intro hmem
    by_cases hx : x = c
    · subst hx
      have hp : [ x ].isPrefixOf (x :: xs) = true := by
        simp [List.isPrefixOf]
      simp [subIndex, hp, List.takeWhile_cons]
    · have hc : c ∈ xs := by
        rcases List.mem_cons.mp hmem with h1 | h1
        · exact absurd h1.symm hx
        · exact h1
      have hp : [ c ].isPrefixOf (x :: xs) = false := by
        simp only [List.isPrefixOf, Bool.and_eq_true, beq_iff_eq,
          Bool.and_eq_false_iff]
        left
        simp only [beq_eq_false_iff_ne, ne_eq]
        exact fun he => hx he.symm
      have hbne : (x != c) = true := by
        simp [bne, hx]
      simp [subIndex, hp, subIndex_single c xs hc, List.takeWhile_cons, hbne]

theorem subIndex_self (s : List Char) (h : s ≠ []) : subIndex s s = some 0 := by
  cases s with
  | nil => exact absurd rfl h
  | cons x xs => simp [subIndex, isPrefixOf_refl]

theorem getLast?_or_cons (c : Char) (l : List Char) (x : Option Char) :
    ((c :: l).getLast?).or x = (l.getLast?).or (some c) := by
  cases l with
  | nil => rfl
  | cons d t =>
    rw [List.getLast?_cons_cons]
    obtain ⟨y, hy⟩ := Option.isSome_iff_exists.mp
      (List.getLast?_isSome.mpr (List.cons_ne_nil d t))
    rw [hy]
    rfl

theorem wordMatchHere_iff (kw s : List Char) (prev : Option Char) :
    wordMatchHere kw s prev = true ↔
      ∃ post, s = kw ++ post ∧ leftBoundary prev = true
        ∧ rightBoundary post = true := by
  unfold wordMatchHere
  simp only [Bool.and_eq_true, isPrefixOf_iff_append]
  constructor
  · rintro ⟨⟨⟨t, rfl⟩, hl⟩, hr⟩
    rw [List.drop_left] at hr
    exact ⟨t, rfl, hl, hr⟩
  · rintro ⟨post, rfl, hl, hr⟩
    refine ⟨⟨⟨post, rfl⟩, hl⟩, ?_⟩
    rw [List.drop_left]
    exact hr

theorem searchWordAux_iff (kw : List Char) :
    ∀ (s : List Char) (prev : Option Char),
      searchWordAux kw s prev = true ↔
        ∃ pre post, s = pre ++ kw ++ post
          ∧ leftBoundary ((pre.getLast?).or prev) = true
          ∧ rightBoundary post = true := by
  intro s
  induction s with
  | nil =>
    intro prev
    rw [searchWordAux, wordMatchHere_iff]
    constructor
    · rintro ⟨post, h, hl, hr⟩
      refine ⟨[], post, by simpa using h, by simpa using hl, hr⟩
    · rintro ⟨pre, post, h, hl, hr⟩
      have h3 : pre = [] ∧ kw = [] ∧ post = [] := by
        have := h.symm
        simp only [List.append_eq_nil, List.append_assoc] at this
        exact ⟨this.1, this.2.1, this.2.2⟩
      refine ⟨post, ?_, ?_, hr⟩
      · rw [h3.2.1]
        simpa using h3.2.2.symm
      · rw [h3.1] at hl
        simpa using hl
  | cons c rest ih =>
    intro prev
    rw [searchWordAux, Bool.or_eq_true, wordMatchHere_iff, ih (some c)]
    constructor
    · rintro (⟨post, h, hl, hr⟩ | ⟨pre, post, h, hl, hr⟩)
      · exact ⟨[], post, by simpa using h, by simpa using hl, hr⟩
      · refine ⟨c :: pre, post, by simp [h], ?_, hr⟩
        rwa [getLast?_or_cons]
    · rintro ⟨pre, post, h, hl, hr⟩
      cases pre with
      | nil =>
        left
        exact ⟨post, by simpa using h, by simpa using hl, hr⟩
      | cons p pre2 =>
        right
        have hpc : p = c ∧ rest = pre2 ++ kw ++ post := by
          have := h
          simp only [List.cons_append, List.cons.injEq] at this
          exact ⟨this.1.symm, this.2⟩
        refine ⟨pre2, post, hpc.2, ?_, hr⟩
        rw [getLast?_or_cons] at hl
        rwa [hpc.1] at hl

theorem searchWord_iff (kw s : List Char) :
    searchWord kw s = true ↔ SpecWordOccurs kw s := by
  rw [searchWord, searchWordAux_iff]
  unfold SpecWordOccurs
  constructor
  · rintro ⟨pre, post, h, hl, hr⟩
    rw [Option.or_none] at hl
    exact ⟨pre, post, h, hl, hr⟩
  · rintro ⟨pre, post, h, hl, hr⟩
    refine ⟨pre, post, h, ?_, hr⟩
    rwa [Option.or_none]

end Py

namespace Py

theorem contains_iff_mem (c : Char) (s : List Char) :
    s.contains c = true ↔ c ∈ s :=
  List.elem_iff

theorem take_length_takeWhile (p : Char → Bool) :
    ∀ s : List Char, s.take ((s.takeWhile p).length) = s.takeWhile p
  | [] => rfl
  | x :: xs => by
    rw [List.takeWhile_cons]
    by_cases h : p x
    · simp only [if_pos h, List.length_cons, List.take_succ_cons,
        take_length_takeWhile p xs]
    · simp [if_neg h]

theorem splitSubOnce_single (c : Char) (s : List Char) (h : c ∈ s) :
    splitSubOnce [ c ] s
      = [s.takeWhile (fun x => x != c),
         s.drop ((s.takeWhile (fun x => x != c)).length + 1)] := by
  rw [splitSubOnce, subIndex_single c s h]
  simp [take_length_takeWhile]

end Py

namespace MainPy

theorem parse_unfold (tag : List Char) :
    ImageVersion.parse tag
      = (match splitChar '.' (versionNumericPart tag) with
         | [p0, p1, p2] =>
           match pyInt (p0.filter (fun c => c != 'v')), pyInt p1, pyInt p2 with
           | some ma, some mi, some pa =>
             some ⟨tag,
               if tag.contains '-' then
                 some (tag.drop ((versionNumericPart tag).length + 1))
               else none,
               ma, mi, pa⟩
           | _, _, _ => none
         | _ => none) := by
  by_cases hc : tag.contains '-'
  · have hm : '-' ∈ tag := (contains_iff_mem '-' tag).mp hc
    simp only [ImageVersion.parse, versionNumericPart, if_pos hc,
      splitSubOnce_single '-' tag hm]
  · simp only [ImageVersion.parse, versionNumericPart, if_neg hc]

/-- C5: version parsing fails (the `InvalidVersionFormat` condition, i.e.
the raised `ValueError`) exactly when, after splitting off the optional
`-`-separated variant, the version part does not split into exactly three
`.`-separated components, or some component fails integer parsing (the
first component after removing every `v`); in particular `1.2` and
`abc.def.ghi` fail. -/
theorem C5_invalid_version_iff :
    (∀ tag : List Char,
      ImageVersion.parse tag = none ↔
        (splitChar '.' (versionNumericPart tag)).length ≠ 3
          ∨ pyInt (((splitChar '.' (versionNumericPart tag)).getD 0 []).filter
              (fun c => c != 'v')) = none
          ∨ pyInt ((splitChar '.' (versionNumericPart tag)).getD 1 []) = none
          ∨ pyInt ((splitChar '.' (versionNumericPart tag)).getD 2 []) = none)
    ∧ ImageVersion.parse (str "1.2") = none
    ∧ ImageVersion.parse (str "abc.def.ghi") = none := by
  refine ⟨?_, by decide, by decide⟩
  intro tag
  rw [parse_unfold]
  rcases hm : splitChar '.' (versionNumericPart tag) with
    _ | ⟨p0, _ | ⟨p1, _ | ⟨p2, _ | ⟨p3, t⟩⟩⟩⟩
  · simp
  · simp
  · simp
  · simp only [List.length_cons, List.length_nil, List.getD_cons_zero,
      List.getD_cons_succ]
    rcases h0 : pyInt (p0.filter (fun c => c != 'v')) with _ | ma
    · simp [h0]
    rcases h1 : pyInt p1 with _ | mi
    · simp [h1]
    rcases h2 : pyInt p2 with _ | pa
    · simp [h2]
    simp [h0, h1, h2]
  · simp

/-- C4: version parsing removes every occurrence of `v` from the first
dot-separated component (not just a leading prefix) before integer parsing;
both `v1.2.3` and `1v.2.3` parse with major 1. -/
theorem C4_v_strip :
    (∀ (tag : List Char) (v : ImageVersion),
      ImageVersion.parse tag = some v →
        v.major
          = (pyInt (((versionNumericPart tag).takeWhile
              (fun c => c != '.')).filter (fun c => c != 'v'))).getD 0)
    ∧ (ImageVersion.parse (str "v1.2.3")).map ImageVersion.major = some 1
    ∧ (ImageVersion.parse (str "1v.2.3")).map ImageVersion.major = some 1 := by
  refine ⟨?_, by decide, by decide⟩
  intro tag v hv
  rw [parse_unfold] at hv
  rcases hm : splitChar '.' (versionNumericPart tag) with
    _ | ⟨p0, _ | ⟨p1, _ | ⟨p2, _ | ⟨p3, t⟩⟩⟩⟩
  · simp only [hm] at hv
    exact Option.noConfusion hv
  · simp only [hm] at hv
    exact Option.noConfusion hv
  · simp only [hm] at hv
    exact Option.noConfusion hv
  · simp only [hm] at hv
    have hp0 : p0 = (versionNumericPart tag).takeWhile (fun x => x != '.') := by
      have hh := splitChar_headD '.' (versionNumericPart tag)
      rw [hm] at hh
      simpa using hh
    rcases h0 : pyInt (p0.filter (fun c => c != 'v')) with _ | ma
    · simp only [h0] at hv
      exact Option.noConfusion hv
    rcases h1 : pyInt p1 with _ | mi
    · simp only [h0, h1] at hv
      exact Option.noConfusion hv
    rcases h2 : pyInt p2 with _ | pa
    · simp only [h0, h1, h2] at hv
      exact Option.noConfusion hv
    simp only [h0, h1, h2] at hv
    have hvv : v = ⟨tag,
        if tag.contains '-' then
          some (tag.drop ((versionNumericPart tag).length + 1))
        else none, ma, mi, pa⟩ := by
      injection hv with h
      exact h.symm
    rw [hvv, ← hp0, h0]
    rfl
  · simp only [hm] at hv
    exact Option.noConfusion hv

/-- Witness for C4 at the concrete tag `v1.2.3`. -/
theorem C4_v_strip_witness :
    (⟨str "v1.2.3", none, 1, 2, 3⟩ : ImageVersion).major
      = (pyInt (((versionNumericPart (str "v1.2.3")).takeWhile
          (fun c => c != '.')).filter (fun c => c != 'v'))).getD 0 :=
  C4_v_strip.1 (str "v1.2.3") ⟨str "v1.2.3", none, 1, 2, 3⟩ (by decide)

/-- C6: `is_prerelease` is false without a variant, and with a variant it
is true exactly when the variant contains one of the keywords `alpha`,
`beta`, `rc`, `pre`, `next`, `canary` as a whole word (word-boundary,
case-sensitive); `beta.1` is a prerelease, `hotfix` and `prepared` are
not. -/
theorem C6_is_prerelease :
    (∀ v : ImageVersion, v.variant = none → v.is_prerelease = false)
    ∧ (∀ (v : ImageVersion) (var : List Char), v.variant = some var →
        (v.is_prerelease = true ↔ ∃ kw ∈ prereleaseWords, SpecWordOccurs kw var))
    ∧ ImageVersion.is_prerelease
        ⟨str "1.2.3-beta.1", some (str "beta.1"), 1, 2, 3⟩ = true
    ∧ ImageVersion.is_prerelease
        ⟨str "1.2.3-hotfix", some (str "hotfix"), 1, 2, 3⟩ = false
    ∧ ImageVersion.is_prerelease
        ⟨str "1.2.3-prepared", some (str "prepared"), 1, 2, 3⟩ = false := by
  refine ⟨?_, ?_, by decide, by decide, by decide⟩
  · intro v hv
    simp [ImageVersion.is_prerelease, hv]
  · intro v var hv
    simp only [ImageVersion.is_prerelease, hv]
    by_cases he : var.isEmpty
    · have hvar : var = [] := by
        cases var with
        | nil => rfl
        | cons a l => simp [List.isEmpty] at he
      subst hvar
      simp only [if_pos he]
      constructor
      · intro hfalse
        exact Bool.noConfusion hfalse
      · rintro ⟨kw, hkw, pre, post, heq, _, _⟩
        have hkwnil : kw = [] := by
          have h2 := heq.symm
          simp only [List.append_eq_nil] at h2
          exact h2.1.2
        subst hkwnil
        revert hkw
        decide
    · simp only [if_neg he, List.any_eq_true, searchWord_iff]

/-- Witness for C6, exercising both hypothesis-bearing conjuncts: a version
with no variant is not a prerelease, and the variant `beta.1` makes one. -/
theorem C6_is_prerelease_witness :
    (⟨str "1.2.3", none, 1, 2, 3⟩ : ImageVersion).is_prerelease = false
    ∧ (⟨str "1.2.3-beta.1", some (str "beta.1"), 1, 2, 3⟩
        : ImageVersion).is_prerelease = true := by
  constructor
  · exact C6_is_prerelease.1 ⟨str "1.2.3", none, 1, 2, 3⟩ rfl
  · refine (C6_is_prerelease.2.1
      ⟨str "1.2.3-beta.1", some (str "beta.1"), 1, 2, 3⟩
      (str "beta.1") rfl).mpr ?_
    refine ⟨str "beta", by decide, [], str ".1", by decide, by decide, by decide⟩

/-- C7: equality and ordering of versions are determined solely by the
`(major, minor, patch)` triple (the variant and original tag never
participate), `__lt__` is the strict lexicographic order, the order is
total, transitive and asymmetric; `Version("2.0.0") > Version("1.9.9")`
(Python evaluates the `>` via the reflected `__lt__`), and `1.2.3-alpha`,
`1.2.3-beta` and `1.2.3` are all equal. -/
theorem C7_ordering :
    (∀ a b : ImageVersion, ImageVersion.eqv a b = true ↔ vkey a = vkey b)
    ∧ (∀ a b : ImageVersion, ImageVersion.lt a b = true ↔
        (a.major < b.major ∨ a.major = b.major ∧
          (a.minor < b.minor ∨ a.minor = b.minor ∧ a.patch < b.patch)))
    ∧ (∀ a b : ImageVersion,
        ImageVersion.lt a b = true ∨ ImageVersion.eqv a b = true
          ∨ ImageVersion.lt b a = true)
    ∧ (∀ a b c : ImageVersion, ImageVersion.lt a b = true →
        ImageVersion.lt b c = true → ImageVersion.lt a c = true)
    ∧ (∀ a b : ImageVersion, ImageVersion.lt a b = true →
        ImageVersion.lt b a = false)
    ∧ ImageVersion.parse (str "2.0.0") = some ⟨str "2.0.0", none, 2, 0, 0⟩
    ∧ ImageVersion.parse (str "1.9.9") = some ⟨str "1.9.9", none, 1, 9, 9⟩
    ∧ ImageVersion.parse (str "1.2.3-alpha")
        = some ⟨str "1.2.3-alpha", some (str "alpha"), 1, 2, 3⟩
    ∧ ImageVersion.parse (str "1.2.3-beta")
        = some ⟨str "1.2.3-beta", some (str "beta"), 1, 2, 3⟩
    ∧ ImageVersion.parse (str "1.2.3") = some ⟨str "1.2.3", none, 1, 2, 3⟩
    ∧ ImageVersion.lt ⟨str "1.9.9", none, 1, 9, 9⟩
        ⟨str "2.0.0", none, 2, 0, 0⟩ = true
    ∧ ImageVersion.eqv ⟨str "1.2.3-alpha", some (str "alpha"), 1, 2, 3⟩
        ⟨str "1.2.3-beta", some (str "beta"), 1, 2, 3⟩ = true
    ∧ ImageVersion.eqv ⟨str "1.2.3-alpha", some (str "alpha"), 1, 2, 3⟩
        ⟨str "1.2.3", none, 1, 2, 3⟩ = true
    ∧ ImageVersion.eqv ⟨str "1.2.3-beta", some (str "beta"), 1, 2, 3⟩
        ⟨str "1.2.3", none, 1, 2, 3⟩ = true := by
  refine ⟨?_, ?_, ?_, ?_, ?_, by decide, by decide, by decide, by decide,
    by decide, by decide, by decide, by decide, by decide⟩
  · intro a b
    simp [ImageVersion.eqv, vkey, Prod.ext_iff]
  · intro a b
    simp only [ImageVersion.lt, tripleLt, vkey, Bool.or_eq_true,
      Bool.and_eq_true, decide_eq_true_eq, beq_iff_eq]
  · intro a b
    simp only [ImageVersion.lt, tripleLt, vkey, ImageVersion.eqv,
      Bool.or_eq_true, Bool.and_eq_true, decide_eq_true_eq, beq_iff_eq,
      Prod.mk.injEq]
    omega
  · intro a b c
    simp only [ImageVersion.lt, tripleLt, vkey, Bool.or_eq_true,
      Bool.and_eq_true, decide_eq_true_eq, beq_iff_eq]
    omega
  · intro a b
    simp only [ImageVersion.lt, tripleLt, vkey, Bool.or_eq_true,
      Bool.and_eq_true, decide_eq_true_eq, beq_iff_eq,
      Bool.or_eq_false_iff, Bool.and_eq_false_iff, decide_eq_false_iff_not,
      not_lt, beq_eq_false_iff_ne, ne_eq]
    omega

/-- Witness for C7: transitivity and asymmetry applied at concrete
versions. -/
theorem C7_ordering_witness :
    ImageVersion.lt ⟨str "1.0.0", none, 1, 0, 0⟩
        ⟨str "3.0.0", none, 3, 0, 0⟩ = true
    ∧ ImageVersion.lt ⟨str "3.0.0", none, 3, 0, 0⟩
        ⟨str "1.0.0", none, 1, 0, 0⟩ = false := by
  constructor
  · exact C7_ordering.2.2.2.1 ⟨str "1.0.0", none, 1, 0, 0⟩
      ⟨str "2.0.0", none, 2, 0, 0⟩ ⟨str "3.0.0", none, 3, 0, 0⟩
      (by decide) (by decide)
  · exact C7_ordering.2.2.2.2.1 ⟨str "1.0.0", none, 1, 0, 0⟩
      ⟨str "3.0.0", none, 3, 0, 0⟩ (by decide)

theorem resolve_candidate_eq_some (cur : ImageVersion) (t : List Char)
    (v : ImageVersion) :
    ((match ImageVersion.parse t with
      | some w =>
        if ImageVersion.lt cur w && !w.is_prerelease then some w else none
      | none => none) = some v)
      ↔ ImageVersion.parse t = some v ∧ ImageVersion.lt cur v = true
          ∧ v.is_prerelease = false := by
  rcases hp : ImageVersion.parse t with _ | w
  · simp
  · dsimp only
    by_cases hc : ImageVersion.lt cur w && !w.is_prerelease
    · rw [if_pos hc]
      simp only [Bool.and_eq_true, Bool.not_eq_true'] at hc
      constructor
      · rintro h
        injection h with h
        subst h
        exact ⟨rfl, hc.1, hc.2⟩
      · rintro ⟨h1, h2, h3⟩
        injection h1 with h1
        rw [h1]
    · rw [if_neg hc]
      simp only [Bool.and_eq_true, Bool.not_eq_true'] at hc
      constructor
      · rintro h
        exact Option.noConfusion h
      · rintro ⟨h1, h2, h3⟩
        injection h1 with h1
        subst h1
        exact absurd ⟨h2, h3⟩ hc

/-- C1: the tag-resolution step keeps exactly the candidates that parse,
are strictly greater than the current version in the
`(major, minor, patch)` order, and are not prereleases; unparseable
candidates are skipped without error; the result is sorted ascending by
`(major, minor, patch)`; on current version `1.0.0` and candidates
`["1.0.1", "0.9.0", "1.1.0-rc", "latest", "2.0.0"]` it yields
`[1.0.1, 2.0.0]`, and an empty list (not an error) when nothing
qualifies. -/
theorem C1_tag_resolution :
    (∀ (cur : ImageVersion) (tags : List (List Char)),
      List.Pairwise
        (fun a b : ImageVersion =>
          a.major < b.major ∨ a.major = b.major ∧
            (a.minor < b.minor ∨ a.minor = b.minor ∧ a.patch ≤ b.patch))
        (resolveTags cur tags)
      ∧ (∀ v : ImageVersion, v ∈ resolveTags cur tags ↔
          ∃ t, t ∈ tags ∧ ImageVersion.parse t = some v
            ∧ ImageVersion.lt cur v = true ∧ v.is_prerelease = false))
    ∧ ImageVersion.parse (str "1.0.0") = some ver100
    ∧ resolveTags ver100
        [str "1.0.1", str "0.9.0", str "1.1.0-rc", str "latest", str "2.0.0"]
        = [ver101, ver200]
    ∧ resolveTags ver100 [str "0.9.0", str "1.1.0-rc", str "latest"] = [] := by
  refine ⟨?_, by decide, by decide, by decide⟩
  intro cur tags
  constructor
  · have hs := List.sorted_insertionSort pyLe
      (tags.filterMap (fun t =>
        match ImageVersion.parse t with
        | some v =>
          if ImageVersion.lt cur v && !v.is_prerelease then some v else none
        | none => none))
    have hp : resolveTags cur tags
        = List.insertionSort pyLe
            (tags.filterMap (fun t =>
              match ImageVersion.parse t with
              | some v =>
                if ImageVersion.lt cur v && !v.is_prerelease then some v
                else none
              | none => none)) := rfl
    rw [hp]
    refine List.Pairwise.imp ?_ hs
    intro a b hab
    simp only [pyLe, tripleLt, vkey, Bool.or_eq_false_iff,
      Bool.and_eq_false_iff, decide_eq_false_iff_not, not_lt,
      beq_eq_false_iff_ne, ne_eq] at hab
    omega
  · intro v
    have hp : resolveTags cur tags
        = List.insertionSort pyLe
            (tags.filterMap (fun t =>
              match ImageVersion.parse t with
              | some v =>
                if ImageVersion.lt cur v && !v.is_prerelease then some v
                else none
              | none => none)) := rfl
    rw [hp, List.mem_insertionSort, List.mem_filterMap]
    constructor
    · rintro ⟨t, ht, hf⟩
      exact ⟨t, ht, (resolve_candidate_eq_some cur t v).mp hf⟩
    · rintro ⟨t, ht, hf⟩
      exact ⟨t, ht, (resolve_candidate_eq_some cur t v).mpr hf⟩

end MainPy

namespace Py

theorem pyJoin_tail_splitChar (c : Char) (s : List Char) (h : c ∈ s) :
    pyJoin [ c ] (splitChar c s).tail
      = s.drop ((s.takeWhile (fun x => x != c)).length + 1) := by
  obtain ⟨a, t, hs, ht⟩ := splitChar_of_mem c s h
  rcases t with _ | ⟨b, t2⟩
  · exact absurd rfl ht
  have ha : a = s.takeWhile (fun x => x != c) := by
    have hh := splitChar_headD c s
    rw [hs] at hh
    simpa using hh
  have hj := pyJoin_splitChar c s
  rw [hs] at hj
  simp only [pyJoin] at hj
  rw [hs]
  simp only [List.tail_cons]
  rw [← ha]
  have hdrop : s.drop (a.length + 1) = pyJoin [ c ] (b :: t2) := by
    rw [← hj]
    have hlen : (a ++ [ c ]).length = a.length + 1 := by simp
    rw [← hlen, List.drop_left]
  rw [hdrop]

end Py

namespace MainPy

/-- C3: after stripping the tag, a bare image with no `/` maps to the
default registry with repository `library/<image>`; otherwise, when the
first `/`-separated segment contains a `.` or `:` it is the registry and
the remainder (after that first `/`) is the repository; otherwise the
default registry with the whole bare image as repository.  In particular
`quay.io/org/image:1.2.3` parses to registry `quay.io`, repository
`org/image` and tag `1.2.3`. -/
theorem C3_parse_image_url :
    (∀ s : List Char,
      ((MainPy.strip_tag s).contains '/' = false →
        parse_image_url s
          = (default_registry, str "library/" ++ MainPy.strip_tag s))
      ∧ ((MainPy.strip_tag s).contains '/' = true →
        ((((MainPy.strip_tag s).takeWhile (fun c => c != '/')).contains '.'
            || ((MainPy.strip_tag s).takeWhile
                (fun c => c != '/')).contains ':') = true →
          parse_image_url s
            = ((MainPy.strip_tag s).takeWhile (fun c => c != '/'),
               (MainPy.strip_tag s).drop
                 (((MainPy.strip_tag s).takeWhile
                     (fun c => c != '/')).length + 1)))
        ∧ ((((MainPy.strip_tag s).takeWhile (fun c => c != '/')).contains '.'
            || ((MainPy.strip_tag s).takeWhile
                (fun c => c != '/')).contains ':') = false →
          parse_image_url s = (default_registry, MainPy.strip_tag s))))
    ∧ parse_image_url (str "quay.io/org/image:1.2.3")
        = (str "quay.io", str "org/image")
    ∧ MainPy.extract_tag (str "quay.io/org/image:1.2.3")
        = Except.ok (str "1.2.3") := by
  refine ⟨?_, by decide, by rfl⟩
  intro s
  refine ⟨?_, fun h => ⟨?_, ?_⟩⟩
  · intro h
    simp only [parse_image_url]
    rw [h]
    simp
  · intro hd
    have hm : '/' ∈ MainPy.strip_tag s := (contains_iff_mem _ _).mp h
    have hjoin := pyJoin_tail_splitChar '/' (MainPy.strip_tag s) hm
    have hstr : str "/" = [ '/' ] := rfl
    simp only [parse_image_url]
    rw [h, splitChar_headD, hd, hstr]
    simp only [Bool.not_true, Bool.false_eq_true, if_false, if_true]
    rw [hjoin]
  · intro hd
    simp only [parse_image_url]
    rw [h, splitChar_headD, hd]
    simp

/-- Witness for C3: the no-slash branch at `nginx:1.0` and the
registry-like branch at `quay.io/org/image:1.2.3`. -/
theorem C3_parse_image_url_witness :
    parse_image_url (str "nginx:1.0") = (default_registry, str "library/nginx")
    ∧ parse_image_url (str "quay.io/org/image:1.2.3")
        = (str "quay.io",
           (MainPy.strip_tag (str "quay.io/org/image:1.2.3")).drop 8) := by
  constructor
  · exact ((C3_parse_image_url.1 (str "nginx:1.0")).1 (by decide))
  · exact ((C3_parse_image_url.1 (str "quay.io/org/image:1.2.3")).2
      (by decide)).1 (by decide)

end MainPy

namespace Py

theorem rfind_ge (c : Char) (s : List Char) : -1 ≤ rfind c s := by
  cases hr : rfindAux c s <;> simp only [rfind, hr] <;> omega

theorem rfind_getElem (c : Char) (s : List Char) (h : rfind c s ≠ -1) :
    s[(rfind c s).toNat]? = some c := by
  cases hr : rfindAux c s with
  | none =>
    exfalso
    apply h
    simp only [rfind, hr]
  | some i =>
    have h2 := rfindAux_getElem c s i hr
    simp only [rfind, hr]
    simpa using h2

theorem rfind_ne_of_ne (c d : Char) (hcd : c ≠ d) (s : List Char)
    (h : rfind c s ≠ -1) : rfind c s ≠ rfind d s := by
  intro heq
  have hd2 : rfind d s ≠ -1 := by rw [← heq]; exact h
  have hc3 := rfind_getElem c s h
  have hd3 := rfind_getElem d s hd2
  rw [← heq] at hd3
  rw [hc3] at hd3
  injection hd3 with hd4
  exact hcd hd4

theorem rfind_append (c : Char) (a b : List Char) (hb : c ∉ b) :
    rfind c (a ++ c :: b) = (a.length : Int) := by
  simp only [rfind, rfindAux_append c b hb a]

end Py

/-- Counterexample for C2: the reference `myrepo/image:1.0` satisfies the
claimed port tie-break condition (a `.`-free segment before the last colon
containing `/`), so per the claim it has a port and no tag; yet `main.py`'s
`extract_tag` does extract the tag `1.0` (its rule is only the position of
the last colon relative to the last slash). -/
theorem C2_counterexample :
    MainPy.specPortTieBreak (str "myrepo/image:1.0") = true
    ∧ MainPy.extract_tag (str "myrepo/image:1.0") = Except.ok (str "1.0") :=
  ⟨by decide, by rfl⟩

/-- C2 amended: `main.py`'s `extract_tag` extracts a tag exactly when the
last `:` occurs after the last `/` (raising an error otherwise), with the
tag being everything after that colon; the port tie-break exception
(more than 2 colon-delimited parts, or a `.`-free `parts[-2]` containing
`/`) belongs only to the `entry.py` lineage, where it yields no tag (the
default `latest`), and where otherwise, a colon being present, the suffix
after the last colon is the tag regardless of slash positions. -/
theorem C2_extract_tag_amended :
    (∀ s : List Char,
      (∃ t, MainPy.extract_tag s = Except.ok t)
        ↔ rfind '/' s < rfind ':' s)
    ∧ (∀ s t : List Char, MainPy.extract_tag s = Except.ok t →
        t = s.drop ((rfind ':' s).toNat + 1))
    ∧ (∀ s : List Char, s.contains ':' = true →
        MainPy.specPortTieBreak s = true →
        EntryPy.extract_tag s = some (str "latest"))
    ∧ (∀ s : List Char, s.contains ':' = true →
        MainPy.specPortTieBreak s = false →
        EntryPy.extract_tag s
          = some (s.drop ((rfind ':' s).toNat + 1))) := by
  refine ⟨?_, ?_, ?_, ?_⟩
  · intro s
    constructor
    · rintro ⟨t, ht⟩
      simp only [MainPy.extract_tag] at ht
      by_cases hcond :
          (decide (rfind ':' s = -1)
            || decide (rfind ':' s < rfind '/' s)) = true
      · rw [if_pos hcond] at ht
        exact Except.noConfusion ht
      · simp only [Bool.or_eq_true, decide_eq_true_eq, not_or] at hcond
        have hne := rfind_ne_of_ne ':' '/' (by decide) s hcond.1
        have hge := rfind_ge '/' s
        omega
    · intro hlt
      have hge := rfind_ge '/' s
      have h1 : rfind ':' s ≠ -1 := by omega
      have hcond : (decide (rfind ':' s = -1)
          || decide (rfind ':' s < rfind '/' s)) = false := by
        simp only [Bool.or_eq_false_iff, decide_eq_false_iff_not]
        omega
      refine ⟨s.drop ((rfind ':' s).toNat + 1), ?_⟩
      simp only [MainPy.extract_tag, hcond, Bool.false_eq_true, if_false]
  · intro s t ht
    simp only [MainPy.extract_tag] at ht
    by_cases hcond :
        (decide (rfind ':' s = -1)
          || decide (rfind ':' s < rfind '/' s)) = true
    · rw [if_pos hcond] at ht
      exact Except.noConfusion ht
    · rw [if_neg hcond] at ht
      injection ht with ht2
      exact ht2.symm
  · intro s hcol htb
    have hmem : ':' ∈ s := (contains_iff_mem ':' s).mp hcol
    obtain ⟨p0, t, hs, ht⟩ := splitChar_of_mem ':' s hmem
    by_cases hlen : (splitChar ':' s).length > 2
    · simp [EntryPy.extract_tag, hlen]
    · rcases t with _ | ⟨p1, t2⟩
      · exact absurd rfl ht
      rcases t2 with _ | ⟨p2, t3⟩
      · simp only [MainPy.specPortTieBreak, hs] at htb
        simp only [List.length_cons, List.length_nil] at htb
        simp only [show (0 + 1 + 1 : Nat) - 2 = 0 from rfl,
          List.getD_cons_zero] at htb
        have h2 : (p0.contains '/' && !p0.contains '.') = true := by
          rcases Bool.or_eq_true_iff.mp htb with h2 | h2
          · simp at h2
          · exact h2
        have h22 : p0.contains '/' = true ∧ (!p0.contains '.') = true := by
          simpa using h2
        have hsl : '/' ∈ p0 := (contains_iff_mem '/' p0).mp h22.1
        have hdot : '.' ∉ p0 := by
          intro hm2
          have h4 := (contains_iff_mem '.' p0).mpr hm2
          have h5 := h22.2
          rw [h4] at h5
          simp at h5
        simp [EntryPy.extract_tag, hs, hsl, hdot]
      · exfalso
        apply hlen
        rw [hs]
        simp
  · intro s hcol htb
    have hmem : ':' ∈ s := (contains_iff_mem ':' s).mp hcol
    obtain ⟨p0, t, hs, ht⟩ := splitChar_of_mem ':' s hmem
    rcases t with _ | ⟨p1, t2⟩
    · exact absurd rfl ht
    rcases t2 with _ | ⟨p2, t3⟩
    · have hjoin := pyJoin_splitChar ':' s
      rw [hs] at hjoin
      simp only [pyJoin] at hjoin
      have hform : p0 ++ [ ':' ] ++ p1 = p0 ++ ':' :: p1 := by simp
      rw [hform] at hjoin
      have hnp1 : ':' ∉ p1 :=
        not_mem_of_mem_splitChar ':' s p1 (by rw [hs]; simp)
      have hrf : rfind ':' s = (p0.length : Int) := by
        rw [← hjoin]
        exact rfind_append ':' p0 p1 hnp1
      have hdrop : s.drop (p0.length + 1) = p1 := by
        rw [← hjoin]
        have hlen2 : (p0 ++ [ ':' ]).length = p0.length + 1 := by simp
        have hform2 : p0 ++ ':' :: p1 = (p0 ++ [ ':' ]) ++ p1 := by simp
        rw [hform2, ← hlen2, List.drop_left]
      simp only [MainPy.specPortTieBreak, hs] at htb
      simp only [List.length_cons, List.length_nil] at htb
      simp only [show (0 + 1 + 1 : Nat) - 2 = 0 from rfl,
        List.getD_cons_zero] at htb
      rcases Bool.or_eq_false_iff.mp htb with ⟨h2, h3⟩
      have hfin : EntryPy.extract_tag s = some p1 := by
        rcases Bool.and_eq_false_iff.mp h3 with h4 | h4
        · have hns : '/' ∉ p0 := by
            intro hm2
            rw [(contains_iff_mem '/' p0).mpr hm2] at h4
            exact Bool.noConfusion h4
          simp [EntryPy.extract_tag, hs, hns]
        · have hdm : '.' ∈ p0 := by
            have h5 : p0.contains '.' = true := by
              cases hcc : p0.contains '.' with
              | true => rfl
              | false =>
                rw [hcc] at h4
                simp at h4
            exact (contains_iff_mem '.' p0).mp h5
          simp [EntryPy.extract_tag, hs, hdm]
      rw [hfin, hrf]
      simp only [Int.toNat_ofNat, hdrop]
    · exfalso
      simp only [MainPy.specPortTieBreak, hs] at htb
      have hgt : (p0 :: p1 :: p2 :: t3).length > 2 := by simp
      simp [hgt] at htb

/-- Witness for C2's amended theorem: the tie-break branch and the
suffix-extraction branch of `entry.py`, and the tag value of `main.py`,
each at a concrete reference. -/
theorem C2_extract_tag_amended_witness :
    EntryPy.extract_tag (str "myrepo/image:1.0") = some (str "latest")
    ∧ EntryPy.extract_tag (str "a.b/c:d") = some (str "d")
    ∧ str "1.0"
        = (str "myrepo/image:1.0").drop
            ((rfind ':' (str "myrepo/image:1.0")).toNat + 1) := by
  refine ⟨?_, ?_, ?_⟩
  · exact C2_extract_tag_amended.2.2.1 (str "myrepo/image:1.0")
      (by decide) (by decide)
  · have h := C2_extract_tag_amended.2.2.2 (str "a.b/c:d")
      (by decide) (by decide)
    rw [h]
    rfl
  · exact C2_extract_tag_amended.2.1 (str "myrepo/image:1.0") (str "1.0")
      (by rfl)

/-- Counterexample for C8: a batch of two references where the first has an
unparseable reference (no tag) raises an uncaught exception that aborts the
whole run — the second reference, which on its own is processed fine and
finds a newer version, is never reached, so the batch does not continue nor
aggregate across the remaining references. -/
theorem C8_counterexample :
    MainPy.runBatch (str "")
        [(str "badtag", MainPy.NetOutcome.ok []),
         (str "img:1.0.0", MainPy.NetOutcome.ok [str "2.0.0"])]
      = Except.error MainPy.RefError.noTag
    ∧ MainPy.runBatch (str "")
        [(str "img:1.0.0", MainPy.NetOutcome.ok [str "2.0.0"])]
      = Except.ok true :=
  ⟨by rfl, by rfl⟩

/-- C8 amended: a failure while processing one reference (unparseable
current tag, missing GHCR credential, or a network/token failure) is an
uncaught exception that aborts the entire batch — references after the
failing one are not processed; only when every reference processes
successfully does the loop aggregate the per-reference found flags. -/
theorem C8_failure_aborts_batch :
    (∀ (tok iu : List Char) (net : MainPy.NetOutcome)
        (rest : List (List Char × MainPy.NetOutcome)) (e : MainPy.RefError),
      MainPy.processRef tok iu net = Except.error e →
        MainPy.runBatch tok ((iu, net) :: rest) = Except.error e)
    ∧ (∀ (tok : List Char) (refs : List (List Char × MainPy.NetOutcome)),
        (∀ r ∈ refs, ∃ b, MainPy.processRef tok r.1 r.2 = Except.ok b) →
        MainPy.runBatch tok refs
          = Except.ok (refs.any (fun r =>
              (MainPy.processRef tok r.1 r.2).toOption.getD false))) := by
  constructor
  · intro tok iu net rest e hp
    simp only [MainPy.runBatch, hp]
  · intro tok refs
    induction refs with
    | nil =>
      intro _
      rfl
    | cons r rest ih =>
      intro hall
      obtain ⟨b, hb⟩ := hall r (List.mem_cons_self r rest)
      have hrest := ih (fun x hx => hall x (List.mem_cons_of_mem r hx))
      rcases r with ⟨iu, net⟩
      simp only [MainPy.runBatch, hb, hrest, List.any_cons]
      rfl

/-- Witness for C8's amended theorem: the abort branch at a concrete
failing reference. -/
theorem C8_failure_aborts_batch_witness :
    MainPy.runBatch (str "") [(str "badtag", MainPy.NetOutcome.ok [])]
      = Except.error MainPy.RefError.noTag :=
  C8_failure_aborts_batch.1 (str "") (str "badtag")
    (MainPy.NetOutcome.ok []) [] MainPy.RefError.noTag (by rfl)

/-- C9: when the run processes all supplied references (no exception), the
process exits 0 when no newer non-prerelease versions were found anywhere
and 1 when any reference had one. -/
theorem C9_exit_code :
    ∀ (tok : List Char) (refs : List (List Char × MainPy.NetOutcome))
      (b : Bool),
      MainPy.runBatch tok refs = Except.ok b →
        MainPy.mainExitCode tok refs = Except.ok (if b then 1 else 0)
        ∧ (b = true ↔ ∃ r ∈ refs,
            MainPy.processRef tok r.1 r.2 = Except.ok true) := by
  intro tok refs
  induction refs with
  | nil =>
    intro b hb
    have hbf : b = false := by
      simp only [MainPy.runBatch] at hb
      injection hb with h
      exact h.symm
    subst hbf
    refine ⟨rfl, ?_⟩
    constructor
    · intro h
      exact Bool.noConfusion h
    · rintro ⟨x, hx, _⟩
      exact absurd hx (List.not_mem_nil x)
  | cons r rest ih =>
    intro b hb
    rcases r with ⟨iu, net⟩
    simp only [MainPy.runBatch] at hb
    cases hp : MainPy.processRef tok iu net with
    | error e =>
      simp only [hp] at hb
      exact Except.noConfusion hb
    | ok found =>
      cases hr : MainPy.runBatch tok rest with
      | error e =>
        simp only [hp, hr] at hb
        exact Except.noConfusion hb
      | ok f =>
        simp only [hp, hr] at hb
        injection hb with hb2
        obtain ⟨hexit, hiff⟩ := ih f hr
        constructor
        · have hrb : MainPy.runBatch tok ((iu, net) :: rest)
              = Except.ok (found || f) := by
            simp only [MainPy.runBatch, hp, hr]
          simp only [MainPy.mainExitCode, hrb, hb2]
        · rw [← hb2, Bool.or_eq_true, hiff]
          constructor
          · rintro (hf | ⟨x, hx, hpx⟩)
            · exact ⟨(iu, net), List.mem_cons_self (iu, net) rest,
                by rw [hp, hf]⟩
            · exact ⟨x, List.mem_cons_of_mem (iu, net) hx, hpx⟩
          · rintro ⟨x, hx, hpx⟩
            rcases List.mem_cons.mp hx with h9 | h9
            · left
              rw [h9, hp] at hpx
              injection hpx with hpx2
            · right
              exact ⟨x, h9, hpx⟩

/-- Witness for C9: a completed run over one reference with a newer version
exits 1. -/
theorem C9_exit_code_witness :
    MainPy.mainExitCode (str "")
        [(str "img:1.0.0", MainPy.NetOutcome.ok [str "2.0.0"])]
      = Except.ok 1 :=
  (C9_exit_code (str "")
    [(str "img:1.0.0", MainPy.NetOutcome.ok [str "2.0.0"])]
    true (by rfl)).1

theorem entry_parse_hyphen (tag : List Char)
    (h : tag.contains '-' = true) :
    EntryPy.VersionWithVariant.parse tag = none := by
  have hne : tag ≠ [] := by
    intro he
    rw [he] at h
    exact Bool.noConfusion h
  have hsp : splitSubOnce tag tag = [[], tag.drop (0 + tag.length)] := by
    rw [splitSubOnce, subIndex_self tag hne]
    simp
  simp only [EntryPy.VersionWithVariant.parse, h, if_true, hsp]
  simp [splitChar]

/-- C10: in the `entry.py` lineage, `tag.split(tag, 1)` splits the tag on
itself, leaving an empty version part, so constructing
`VersionWithVariant` from any tag containing `-` always raises
`ValueError`; consequently no constructed value ever carries a variant. -/
theorem C10_hyphen_always_fails :
    (∀ tag : List Char, tag.contains '-' = true →
      EntryPy.VersionWithVariant.parse tag = none)
    ∧ (∀ (tag : List Char) (v : EntryPy.VersionWithVariant),
        EntryPy.VersionWithVariant.parse tag = some v →
          v.variant = none) := by
  constructor
  · exact entry_parse_hyphen
  · intro tag v hv
    by_cases hc : tag.contains '-' = true
    · rw [entry_parse_hyphen tag hc] at hv
      exact Option.noConfusion hv
    · simp only [EntryPy.VersionWithVariant.parse] at hv
      rw [if_neg hc] at hv
      dsimp only at hv
      rcases hm : splitChar '.' tag with
        _ | ⟨p0, _ | ⟨p1, _ | ⟨p2, _ | ⟨p3, t⟩⟩⟩⟩ <;> simp only [hm] at hv
      · exact Option.noConfusion hv
      · exact Option.noConfusion hv
      · exact Option.noConfusion hv
      · rcases h0 : pyInt p0 with _ | ma
        · simp only [h0] at hv
          exact Option.noConfusion hv
        rcases h1 : pyInt p1 with _ | mi
        · simp only [h0, h1] at hv
          exact Option.noConfusion hv
        rcases h2 : pyInt p2 with _ | pa
        · simp only [h0, h1, h2] at hv
          exact Option.noConfusion hv
        simp only [h0, h1, h2] at hv
        injection hv with hv2
        rw [← hv2]
      · exact Option.noConfusion hv

/-- Witness for C10: the hyphenated tag `1.2.3-rc` fails to construct. -/
theorem C10_hyphen_always_fails_witness :
    EntryPy.VersionWithVariant.parse (str "1.2.3-rc") = none :=
  C10_hyphen_always_fails.1 (str "1.2.3-rc") (by decide)
